import Mathlib

/-!
Verification of the CSV splitter core (src/App.tsx) against its
natural-language specification.

The JavaScript/TypeScript core is shallowly embedded: rows are ordered
association lists from header string to cell string, the `reduce` that
buckets rows is a `List.foldl`, and the enumeration order of a plain
JavaScript object's string keys (ECMA-262 OrdinaryOwnPropertyKeys: array
indices ascending first, then remaining string keys in insertion order)
is modelled explicitly, since `Object.entries` is what fixes the order of
the generated files.
-/

namespace CsvSplitter

/-- The character set matched by the regular-expression class `\s` in
JavaScript (ECMA-262 WhiteSpace and LineTerminator), also the set trimmed
by `String.prototype.trim`. -/
def jsWhitespace (c : Char) : Bool :=
  c == ' ' || c == '\t' || c == '\n' || c == '\r' ||
  c == '\x0b' || c == '\x0c' || c == ' ' || c == ' ' ||
  (' ' ≤ c && c ≤ ' ') ||
  c == ' ' || c == ' ' || c == ' ' || c == ' ' ||
  c == '　' || c == '﻿'

/-- Characters kept by the first `replace` of `sanitizeFilename`: the
class `[a-z0-9\s-]` under the `i` flag (ASCII letters of either case,
ASCII digits, whitespace, hyphen). -/
def keepChar (c : Char) : Bool :=
  ('a' ≤ c && c ≤ 'z') || ('A' ≤ c && c ≤ 'Z') || ('0' ≤ c && c ≤ '9') ||
  jsWhitespace c || c == '-'

/-- Global replacement of every character run matching `p` by a single
underscore, as a left-to-right scan; the Boolean records whether the
previous character matched (whether we are inside a run). Instantiated
at `jsWhitespace` this is `replace(/\s+/g, "_")`. -/
def collapseRunsAux (p : Char → Bool) : Bool → List Char → List Char
  | _, [] => []
  | inRun, c :: cs =>
    if p c then
      if inRun then collapseRunsAux p true cs
      else '_' :: collapseRunsAux p true cs
    else c :: collapseRunsAux p false cs

/-- The second `replace` of `sanitizeFilename`: `replace(/\s+/g, "_")`. -/
def collapseWs (l : List Char) : List Char := collapseRunsAux jsWhitespace false l

/-- `String.prototype.trim` over `jsWhitespace`. -/
def jsTrim (l : List Char) : List Char :=
  ((l.dropWhile jsWhitespace).reverse.dropWhile jsWhitespace).reverse

/-- The base of `sanitizeFilename` (everything before the appended
extension), on character lists. -/
def sanitizeBase (l : List Char) : List Char :=
  jsTrim (collapseWs (l.filter keepChar))

def sanitizedBase (s : String) : String := String.mk (sanitizeBase s.toList)

/-- `sanitizeFilename` from src/App.tsx:
`name.replace(/[^a-z0-9\s-]/gi, "").replace(/\s+/g, "_").trim() + ".csv"`. -/
def sanitizeFilename (s : String) : String := sanitizedBase s ++ ".csv"

/-- Run replacement as the specification words it (section 4.4 step 2):
each maximal run of one-or-more matching characters becomes a single
underscore; the recursive call skips past the whole run. -/
def collapseRuns (p : Char → Bool) : List Char → List Char
  | [] => []
  | c :: cs =>
    if p c then '_' :: collapseRuns p (cs.dropWhile p)
    else c :: collapseRuns p cs
termination_by l => l.length
decreasing_by
  · exact Nat.lt_succ_of_le (List.dropWhile_sublist _).length_le
  · exact Nat.lt_succ_self _

/-- The sanitizer as the specification words it (section 4.4): remove
disallowed characters, collapse whitespace runs to underscores, trim,
append the extension. -/
def specSanitize (s : String) : String :=
  String.mk (jsTrim (collapseRuns jsWhitespace (s.toList.filter keepChar))) ++ ".csv"

theorem collapseRunsAux_true_eq (p : Char → Bool) (cs : List Char) :
    collapseRunsAux p true cs = collapseRunsAux p false (cs.dropWhile p) := by
  induction cs with
  | nil => rfl
  | cons c cs ih =>
    cases hw : p c with
    | false => simp [collapseRunsAux, hw, List.dropWhile_cons]
    | true => simp [collapseRunsAux, hw, List.dropWhile_cons, ih]

theorem collapseRunsAux_false_eq (p : Char → Bool) (n : Nat) :
    ∀ l : List Char, l.length = n → collapseRunsAux p false l = collapseRuns p l := by
  induction n using Nat.strong_induction_on with
  | _ n ih =>
    intro l hn
    cases l with
    | nil => simp [collapseRunsAux, collapseRuns]
    | cons c cs =>
      rw [collapseRunsAux, collapseRuns]
      cases hw : p c with
      | false =>
        simp only [Bool.false_eq_true, if_false]
        exact congrArg (c :: ·) (ih cs.length (hn ▸ Nat.lt_succ_self _) cs rfl)
      | true =>
        simp only [if_true]
        rw [collapseRunsAux_true_eq]
        refine congrArg ('_' :: ·) (ih (cs.dropWhile p).length ?_ _ rfl)
        exact hn ▸ Nat.lt_succ_of_le (List.dropWhile_sublist _).length_le

theorem collapseWs_eq_collapseRuns (l : List Char) :
    collapseWs l = collapseRuns jsWhitespace l :=
  collapseRunsAux_false_eq jsWhitespace l.length l rfl

/-- Characters that can occur in a sanitized base name. -/
def allowedBaseChar (c : Char) : Bool :=
  ('a' ≤ c && c ≤ 'z') || ('A' ≤ c && c ≤ 'Z') || ('0' ≤ c && c ≤ '9') ||
  c == '-' || c == '_'

theorem mem_collapseRunsAux {p : Char → Bool} {c : Char} :
    ∀ (b : Bool) (l : List Char), c ∈ collapseRunsAux p b l →
      c = '_' ∨ (c ∈ l ∧ p c = false) := by
  intro b l
  induction l generalizing b with
  | nil => intro h; cases h
  | cons d ds ih =>
    intro h
    rw [collapseRunsAux] at h
    cases hd : p d with
    | true =>
      rw [hd, if_pos rfl] at h
      cases b with
      | true =>
        rcases ih true h with h1 | ⟨h2, h3⟩
        · exact Or.inl h1
        · exact Or.inr ⟨List.mem_cons_of_mem d h2, h3⟩
      | false =>
        rcases List.mem_cons.mp h with h1 | h2
        · exact Or.inl h1
        · rcases ih true h2 with h3 | ⟨h4, h5⟩
          · exact Or.inl h3
          · exact Or.inr ⟨List.mem_cons_of_mem d h4, h5⟩
    | false =>
      rw [hd] at h
      simp only [Bool.false_eq_true, if_false] at h
      rcases List.mem_cons.mp h with h1 | h2
      · subst h1; exact Or.inr ⟨List.mem_cons_self c ds, hd⟩
      · rcases ih false h2 with h3 | ⟨h4, h5⟩
        · exact Or.inl h3
        · exact Or.inr ⟨List.mem_cons_of_mem d h4, h5⟩

theorem collapseRunsAux_eq_self {p : Char → Bool} {l : List Char}
    (h : ∀ c ∈ l, p c = false) : collapseRunsAux p false l = l := by
  induction l with
  | nil => rfl
  | cons d ds ih =>
    rw [collapseRunsAux, h d (List.mem_cons_self d ds)]
    simp only [Bool.false_eq_true, if_false]
    exact congrArg (d :: ·) (ih (fun c hc => h c (List.mem_cons_of_mem d hc)))

theorem dropWhile_eq_self_of_no_match {p : Char → Bool} {l : List Char}
    (h : ∀ c ∈ l, p c = false) : l.dropWhile p = l := by
  cases l with
  | nil => rfl
  | cons c cs => simp [List.dropWhile_cons, h c (List.mem_cons_self c cs)]

theorem jsTrim_eq_self_of_no_ws {l : List Char}
    (h : ∀ c ∈ l, jsWhitespace c = false) : jsTrim l = l := by
  have h2 : ∀ c ∈ l.reverse, jsWhitespace c = false :=
    fun c hc => h c (List.mem_reverse.mp hc)
  rw [jsTrim, dropWhile_eq_self_of_no_match h, dropWhile_eq_self_of_no_match h2,
    List.reverse_reverse]

theorem mem_jsTrim {c : Char} {l : List Char} (h : c ∈ jsTrim l) : c ∈ l := by
  rw [jsTrim, List.mem_reverse] at h
  have h2 := (List.dropWhile_sublist _).subset h
  rw [List.mem_reverse] at h2
  exact (List.dropWhile_sublist _).subset h2

/-- Every character of a sanitized base is an ASCII letter, an ASCII
digit, a hyphen or an underscore, and is not whitespace. -/
theorem sanitizeBase_chars {c : Char} {l : List Char} (h : c ∈ sanitizeBase l) :
    allowedBaseChar c = true ∧ jsWhitespace c = false := by
  have h1 := mem_jsTrim h
  rcases mem_collapseRunsAux false _ h1 with h2 | ⟨h3, h4⟩
  · subst h2; exact ⟨by decide, by decide⟩
  · have h5 := (List.mem_filter.mp h3).2
    simp only [keepChar, h4, Bool.or_false, Bool.false_or] at h5
    simp only [allowedBaseChar, h5]
    refine ⟨?_, h4⟩
    rcases Bool.or_eq_true_iff.mp h5 with h6 | h6
    · rcases Bool.or_eq_true_iff.mp h6 with h7 | h7 <;> simp [h7]
    · simp [h6]

theorem keepChar_of_allowed {c : Char} (h1 : allowedBaseChar c = true)
    (h2 : c ≠ '_') : keepChar c = true := by
  simp only [allowedBaseChar, Bool.or_eq_true_iff, Bool.and_eq_true,
    decide_eq_true_eq, beq_iff_eq] at h1
  simp only [keepChar, Bool.or_eq_true_iff, Bool.and_eq_true,
    decide_eq_true_eq, beq_iff_eq]
  tauto

/-- Re-sanitizing a base that contains no underscore is the identity. -/
theorem sanitizeBase_fixed {l : List Char} (h : '_' ∉ sanitizeBase l) :
    sanitizeBase (sanitizeBase l) = sanitizeBase l := by
  have hchars : ∀ c ∈ sanitizeBase l, keepChar c = true ∧ jsWhitespace c = false := by
    intro c hc
    have h1 := sanitizeBase_chars hc
    exact ⟨keepChar_of_allowed h1.1 (fun he => h (he ▸ hc)), h1.2⟩
  have hfilter : (sanitizeBase l).filter keepChar = sanitizeBase l :=
    List.filter_eq_self.mpr (fun c hc => (hchars c hc).1)
  conv_lhs => rw [sanitizeBase, hfilter]
  rw [show collapseWs (sanitizeBase l) = sanitizeBase l from
    collapseRunsAux_eq_self (fun c hc => (hchars c hc).2)]
  exact jsTrim_eq_self_of_no_ws (fun c hc => (hchars c hc).2)

/-- C3: `sanitizeFilename` removes every character outside the class
ASCII letter / ASCII digit / whitespace / hyphen, then replaces each
whitespace run by one underscore, then trims, then appends ".csv";
accented letters are stripped, so "Café & Cia!" becomes "Caf_Cia.csv". -/
theorem sanitizeFilename_spec (s : String) :
    sanitizeFilename s = specSanitize s ∧
    sanitizeFilename "Café & Cia!" = "Caf_Cia.csv" := by
  constructor
  · rw [sanitizeFilename, specSanitize, sanitizedBase, sanitizeBase,
      collapseWs_eq_collapseRuns]
  · decide

/-- C4 counterexample: sanitizing the base of `sanitizeFilename "a b"`
does not give back `sanitizeFilename "a b"`: the underscore produced by
whitespace collapsing is stripped on the second pass. -/
theorem sanitizeFilename_idempotent_counterexample :
    sanitizedBase "a b" = "a_b" ∧
    sanitizeFilename "a b" = "a_b.csv" ∧
    sanitizeFilename (sanitizedBase "a b") = "ab.csv" ∧
    sanitizeFilename (sanitizedBase "a b") ≠ sanitizeFilename "a b" := by
  refine ⟨by decide, by decide, by decide, by decide⟩

/-- C4 (amended): `sanitizeFilename` is idempotent on the stripped base
exactly on inputs whose sanitized base contains no underscore (no
internal whitespace survived into the base); re-application strips
underscores, so the general claim fails. -/
theorem sanitizeFilename_idempotent_amended (s : String)
    (h : '_' ∉ sanitizeBase s.toList) :
    sanitizeFilename (sanitizedBase s) = sanitizeFilename s := by
  rw [sanitizeFilename, sanitizeFilename, sanitizedBase, sanitizedBase]
  have h3 : (String.mk (sanitizeBase s.toList)).toList = sanitizeBase s.toList := rfl
  rw [h3, sanitizeBase_fixed h]

theorem sanitizeFilename_idempotent_amended_witness :
    '_' ∉ sanitizeBase "abc".toList ∧
    sanitizeFilename (sanitizedBase "abc") = sanitizeFilename "abc" :=
  ⟨by decide, sanitizeFilename_idempotent_amended "abc" (by decide)⟩

/-- C9: every output of `sanitizeFilename` is its base followed by
".csv"; the base contains only ASCII letters, digits, underscore and
hyphen (in particular no whitespace); and an input none of whose
characters is kept produces the bare ".csv". -/
theorem sanitizeFilename_invariant (s : String) :
    sanitizeFilename s = sanitizedBase s ++ ".csv" ∧
    (∀ c ∈ (sanitizedBase s).toList,
       allowedBaseChar c = true ∧ jsWhitespace c = false) ∧
    ((∀ c ∈ s.toList, keepChar c = false) → sanitizeFilename s = ".csv") := by
  refine ⟨rfl, ?_, ?_⟩
  · intro c hc
    exact sanitizeBase_chars hc
  · intro h
    have h1 : s.toList.filter keepChar = [] := by
      rw [List.filter_eq_nil_iff]
      intro c hc
      simp [h c hc]
    rw [sanitizeFilename, sanitizedBase, sanitizeBase, h1]
    rfl

theorem sanitizeFilename_invariant_witness :
    (∀ c ∈ ("é!".toList), keepChar c = false) ∧ sanitizeFilename "é!" = ".csv" :=
  ⟨by decide, (sanitizeFilename_invariant "é!").2.2 (by decide)⟩

/-- A parsed CSV row: an ordered mapping from header string to cell
string (a PapaParse row object with `header: true`). -/
abbrev Row := List (String × String)

/-- Property access `row[k]` on a row object. -/
def rowGet (r : Row) (k : String) : Option String :=
  (r.find? (fun p => p.1 == k)).map (fun p => p.2)

/-- `row.hasOwnProperty(k)`. -/
def hasOwnProperty (r : Row) (k : String) : Bool :=
  r.any (fun p => p.1 == k)

def jsTrimStr (s : String) : String := String.mk (jsTrim s.toList)

/-- `row[columnName]?.trim()` followed by the truthiness test of the
grouping loop: `none` when the key is missing or the trimmed value is
empty (the row is skipped), otherwise the trimmed value. -/
def trimVal (col : String) (r : Row) : Option String :=
  match rowGet r col with
  | none => none
  | some v => if jsTrimStr v = "" then none else some (jsTrimStr v)

/-- `acc[groupName].push(row)` on an insertion-ordered object: append the
row at the existing entry, or create the entry at the end. -/
def insertRow (acc : List (String × List Row)) (k : String) (r : Row) :
    List (String × List Row) :=
  match acc with
  | [] => [(k, [r])]
  | (k', rs) :: rest =>
    if k' = k then (k', rs ++ [r]) :: rest else (k', rs) :: insertRow rest k r

/-- One step of the `reduce` in processCsvFile. -/
def groupStep (col : String) (acc : List (String × List Row)) (r : Row) :
    List (String × List Row) :=
  match trimVal col r with
  | none => acc
  | some k => insertRow acc k r

/-- The `reduce` of processCsvFile: the grouping object as an
insertion-ordered association list. -/
def groupedByValue (data : List Row) (col : String) : List (String × List Row) :=
  data.foldl (groupStep col) []

/-- Canonical array-index strings: the object keys that ECMA-262
OrdinaryOwnPropertyKeys enumerates first, in ascending numeric order
(canonical decimal form of an integer below 2^32 - 1). -/
def digitsToNat (l : List Char) : Nat :=
  l.foldl (fun n c => n * 10 + (c.toNat - '0'.toNat)) 0

def isCanonicalIndex (s : String) : Bool :=
  match s.toList with
  | [] => false
  | c :: cs =>
    ((c == '0') && cs.isEmpty) ||
    ((c != '0') && (c :: cs).all Char.isDigit && digitsToNat (c :: cs) < 4294967295)

def entryKeyNum (p : String × List Row) : Nat := digitsToNat p.1.toList

/-- `Object.entries` enumeration order on the grouping object: canonical
array-index keys in ascending numeric order first, then the remaining
keys in insertion order. -/
def jsEntries (g : List (String × List Row)) : List (String × List Row) :=
  List.insertionSort (fun a b => entryKeyNum a ≤ entryKeyNum b)
      (g.filter (fun p => isCanonicalIndex p.1)) ++
    g.filter (fun p => ! isCanonicalIndex p.1)

/-- First-occurrence deduplication, keeping elements not in `seen`. -/
def dedupFirst : List String → List String → List String
  | _, [] => []
  | seen, a :: l =>
    if a ∈ seen then dedupFirst seen l else a :: dedupFirst (a :: seen) l

/-- The distinct non-empty trimmed grouping values, in first-occurrence
order. -/
def firstOccurrenceKeys (data : List Row) (col : String) : List String :=
  dedupFirst [] (data.filterMap (trimVal col))

/-- The rows whose trimmed grouping value is `k`, in original order. -/
def matchRows (data : List Row) (col k : String) : List Row :=
  data.filter (fun r => decide (trimVal col r = some k))

/-- Modelled from the spec's partition description (section 4.3): one
group per distinct key in first-occurrence order, each holding, in
original order, exactly the rows whose trimmed value is its key. -/
def partitionRef (data : List Row) (col : String) : List (String × List Row) :=
  (firstOccurrenceKeys data col).map (fun k => (k, matchRows data col k))

/-- Lookup in an insertion-ordered association list. -/
def alookup : List (String × List Row) → String → Option (List Row)
  | [], _ => none
  | (k', rs) :: rest, k => if k' = k then some rs else alookup rest k

theorem alookup_insertRow_self (acc : List (String × List Row)) (k : String) (r : Row) :
    alookup (insertRow acc k r) k = some ((alookup acc k).getD [] ++ [r]) := by
  induction acc with
  | nil => simp [insertRow, alookup]
  | cons p rest ih =>
    obtain ⟨k', rs⟩ := p
    by_cases h : k' = k
    · subst h; simp [insertRow, alookup]
    · simp [insertRow, alookup, h, ih]

theorem alookup_insertRow_ne (acc : List (String × List Row)) {k k' : String}
    (h : k' ≠ k) (r : Row) : alookup (insertRow acc k' r) k = alookup acc k := by
  induction acc with
  | nil => simp [insertRow, alookup, h]
  | cons p rest ih =>
    obtain ⟨k'', rs⟩ := p
    by_cases h2 : k'' = k'
    · subst h2; simp [insertRow, alookup, h]
    · simp [insertRow, alookup, h2, ih]

theorem keys_insertRow (acc : List (String × List Row)) (k : String) (r : Row) :
    (insertRow acc k r).map Prod.fst =
      if k ∈ acc.map Prod.fst then acc.map Prod.fst else acc.map Prod.fst ++ [k] := by
  induction acc with
  | nil => simp [insertRow]
  | cons p rest ih =>
    obtain ⟨k', rs⟩ := p
    by_cases h : k' = k
    · subst h; simp [insertRow]
    · have h2 : k ≠ k' := fun he => h he.symm
      simp only [insertRow, if_neg h, List.map_cons, List.mem_cons, ih]
      by_cases h3 : k ∈ rest.map Prod.fst
      · simp [h3, h2]
      · simp [h3, h2]

theorem mem_dedupFirst {a : String} :
    ∀ (l seen : List String), a ∈ dedupFirst seen l ↔ (a ∈ l ∧ a ∉ seen) := by
  intro l
  induction l with
  | nil => intro seen; simp [dedupFirst]
  | cons b l ih =>
    intro seen
    by_cases hb : b ∈ seen
    · rw [dedupFirst, if_pos hb, ih]
      constructor
      · rintro ⟨h1, h2⟩; exact ⟨List.mem_cons_of_mem b h1, h2⟩
      · rintro ⟨h1, h2⟩
        rcases List.mem_cons.mp h1 with h3 | h3
        · exact absurd (h3 ▸ hb) h2
        · exact ⟨h3, h2⟩
    · rw [dedupFirst, if_neg hb]
      constructor
      · intro h
        rcases List.mem_cons.mp h with h1 | h1
        · exact ⟨h1 ▸ List.mem_cons_self b l, h1 ▸ hb⟩
        · have h2 := (ih (b :: seen)).mp h1
          exact ⟨List.mem_cons_of_mem b h2.1,
            fun hs => h2.2 (List.mem_cons_of_mem b hs)⟩
      · rintro ⟨h1, h2⟩
        rcases List.mem_cons.mp h1 with h3 | h3
        · exact h3 ▸ List.mem_cons_self b _
        · by_cases hab : a = b
          · exact hab ▸ List.mem_cons_self b _
          · exact List.mem_cons_of_mem b ((ih (b :: seen)).mpr
              ⟨h3, fun hs => (List.mem_cons.mp hs).elim hab h2⟩)

theorem nodup_dedupFirst : ∀ (l seen : List String), (dedupFirst seen l).Nodup := by
  intro l
  induction l with
  | nil => intro seen; simp [dedupFirst]
  | cons b l ih =>
    intro seen
    by_cases hb : b ∈ seen
    · rw [dedupFirst, if_pos hb]; exact ih seen
    · rw [dedupFirst, if_neg hb]
      refine List.nodup_cons.mpr ⟨?_, ih (b :: seen)⟩
      intro hmem
      exact ((mem_dedupFirst l (b :: seen)).mp hmem).2 (List.mem_cons_self b seen)

theorem dedupFirst_congr {s₁ s₂ : List String}
    (h : ∀ x, x ∈ s₁ ↔ x ∈ s₂) : ∀ l, dedupFirst s₁ l = dedupFirst s₂ l := by
  intro l
  induction l generalizing s₁ s₂ with
  | nil => simp [dedupFirst]
  | cons b l ih =>
    by_cases hb : b ∈ s₁
    · rw [dedupFirst, if_pos hb, dedupFirst, if_pos ((h b).mp hb)]
      exact ih h
    · rw [dedupFirst, if_neg hb, dedupFirst, if_neg (fun h2 => hb ((h b).mpr h2))]
      refine congrArg (b :: ·) (ih ?_)
      intro x
      simp only [List.mem_cons, h x]

theorem matchRows_cons (r : Row) (data : List Row) (col k : String) :
    matchRows (r :: data) col k =
      if trimVal col r = some k then r :: matchRows data col k
      else matchRows data col k := by
  by_cases h : trimVal col r = some k
  · simp [matchRows, List.filter_cons, h]
  · simp [matchRows, List.filter_cons, h]

theorem alookup_groupFold (col : String) :
    ∀ (data : List Row) (acc : List (String × List Row)) (k : String),
      alookup (data.foldl (groupStep col) acc) k =
        match alookup acc k with
        | some rs => some (rs ++ matchRows data col k)
        | none =>
          if matchRows data col k = [] then none else some (matchRows data col k) := by
  intro data
  induction data with
  | nil =>
    intro acc k
    simp only [List.foldl_nil, matchRows, List.filter_nil]
    cases alookup acc k <;> simp
  | cons r rest ih =>
    intro acc k
    rw [List.foldl_cons]
    cases htv : trimVal col r with
    | none =>
      have hne : trimVal col r ≠ some k := by simp [htv]
      rw [show groupStep col acc r = acc from by simp [groupStep, htv],
        ih acc k, matchRows_cons, if_neg hne]
    | some k₀ =>
      have hstep : groupStep col acc r = insertRow acc k₀ r := by
        simp [groupStep, htv]
      by_cases hk : k₀ = k
      · subst hk
        have heq : trimVal col r = some k₀ := htv
        rw [hstep, ih (insertRow acc k₀ r) k₀, matchRows_cons, if_pos heq,
          alookup_insertRow_self]
        cases hacc : alookup acc k₀ with
        | none => simp
        | some rs => simp
      · have hne : trimVal col r ≠ some k := by simp [htv, hk]
        rw [hstep, ih (insertRow acc k₀ r) k, alookup_insertRow_ne acc hk r,
          matchRows_cons, if_neg hne]

theorem keys_groupFold (col : String) :
    ∀ (data : List Row) (acc : List (String × List Row)),
      (data.foldl (groupStep col) acc).map Prod.fst =
        acc.map Prod.fst ++
          dedupFirst (acc.map Prod.fst) (data.filterMap (trimVal col)) := by
  intro data
  induction data with
  | nil => intro acc; simp [dedupFirst]
  | cons r rest ih =>
    intro acc
    rw [List.foldl_cons]
    cases htv : trimVal col r with
    | none =>
      rw [show groupStep col acc r = acc from by simp [groupStep, htv], ih acc,
        List.filterMap_cons_none htv]
    | some k₀ =>
      have hstep : groupStep col acc r = insertRow acc k₀ r := by
        simp [groupStep, htv]
      rw [hstep, ih (insertRow acc k₀ r), List.filterMap_cons_some htv,
        keys_insertRow]
      by_cases hmem : k₀ ∈ acc.map Prod.fst
      · rw [if_pos hmem, dedupFirst, if_pos hmem]
      · rw [if_neg hmem, dedupFirst, if_neg hmem, List.append_assoc,
          List.singleton_append]
        refine congrArg (acc.map Prod.fst ++ k₀ :: ·) (dedupFirst_congr ?_ _)
        intro x
        simp [List.mem_append, List.mem_cons, or_comm]

theorem alookup_eq_none_of_not_mem {k : String} :
    ∀ {l : List (String × List Row)}, k ∉ l.map Prod.fst → alookup l k = none := by
  intro l
  induction l with
  | nil => intro _; rfl
  | cons p rest ih =>
    intro h
    obtain ⟨k', rs⟩ := p
    simp only [List.map_cons, List.mem_cons] at h
    push_neg at h
    rw [alookup, if_neg (fun he => h.1 he.symm)]
    exact ih h.2

theorem assoc_ext :
    ∀ (l₁ l₂ : List (String × List Row)),
      l₁.map Prod.fst = l₂.map Prod.fst → (l₁.map Prod.fst).Nodup →
      (∀ k, alookup l₁ k = alookup l₂ k) → l₁ = l₂ := by
  intro l₁
  induction l₁ with
  | nil =>
    intro l₂ hkeys _ _
    cases l₂ with
    | nil => rfl
    | cons p rest => simp at hkeys
  | cons p rest ih =>
    intro l₂ hkeys hnd hl
    obtain ⟨k, rs⟩ := p
    cases l₂ with
    | nil => simp at hkeys
    | cons q rest₂ =>
      obtain ⟨k₂, rs₂⟩ := q
      simp only [List.map_cons, List.cons.injEq] at hkeys
      obtain ⟨hk, hkeys₂⟩ := hkeys
      subst hk
      have hv := hl k
      rw [alookup, if_pos rfl, alookup, if_pos rfl] at hv
      have hrs : rs = rs₂ := Option.some.injEq .. ▸ hv
      have hnd₂ := List.nodup_cons.mp hnd
      refine congrArg₂ (· :: ·) (by rw [hrs]) (ih rest₂ hkeys₂ hnd₂.2 ?_)
      intro k'
      by_cases hk' : k' = k
      · subst hk'
        rw [alookup_eq_none_of_not_mem hnd₂.1,
          alookup_eq_none_of_not_mem (hkeys₂ ▸ hnd₂.1)]
      · have := hl k'
        rwa [alookup, if_neg (fun he => hk' he.symm), alookup,
          if_neg (fun he => hk' he.symm)] at this

theorem alookup_partitionRef (data : List Row) (col k : String) :
    alookup (partitionRef data col) k =
      if k ∈ firstOccurrenceKeys data col then some (matchRows data col k)
      else none := by
  rw [partitionRef]
  generalize firstOccurrenceKeys data col = ks
  induction ks with
  | nil => simp [alookup]
  | cons k₀ ks ih =>
    by_cases h : k₀ = k
    · subst h; simp [alookup]
    · rw [List.map_cons, alookup, if_neg h, ih]
      by_cases h2 : k ∈ ks
      · rw [if_pos h2, if_pos (List.mem_cons_of_mem _ h2)]
      · rw [if_neg h2, if_neg
          (fun hm => (List.mem_cons.mp hm).elim (fun he => h he.symm) h2)]

theorem keys_partitionRef (data : List Row) (col : String) :
    (partitionRef data col).map Prod.fst = firstOccurrenceKeys data col := by
  have h : (Prod.fst ∘ fun k => (k, matchRows data col k)) = id := rfl
  rw [partitionRef, List.map_map, h, List.map_id]

theorem mem_firstOccurrenceKeys {data : List Row} {col k : String} :
    k ∈ firstOccurrenceKeys data col ↔ matchRows data col k ≠ [] := by
  rw [firstOccurrenceKeys, mem_dedupFirst]
  simp only [List.not_mem_nil, not_false_iff, and_true]
  constructor
  · intro h
    rcases List.mem_filterMap.mp h with ⟨r, hr, htv⟩
    intro hnil
    have : r ∈ matchRows data col k := by
      rw [matchRows, List.mem_filter]
      exact ⟨hr, by simp [htv]⟩
    rw [hnil] at this
    cases this
  · intro h
    rcases List.exists_mem_of_ne_nil _ h with ⟨r, hr⟩
    rw [matchRows, List.mem_filter] at hr
    exact List.mem_filterMap.mpr ⟨r, hr.1, of_decide_eq_true hr.2⟩

/-- The `reduce` of processCsvFile computes exactly the spec's partition:
same keys in first-occurrence order, each key holding, in original order,
exactly the rows whose trimmed grouping value equals it. -/
theorem groupedByValue_eq_partitionRef (data : List Row) (col : String) :
    groupedByValue data col = partitionRef data col := by
  have hkeys : (groupedByValue data col).map Prod.fst = firstOccurrenceKeys data col := by
    rw [groupedByValue, keys_groupFold]
    simp [firstOccurrenceKeys]
  refine assoc_ext _ _ (by rw [hkeys, keys_partitionRef])
    (by rw [hkeys]; exact nodup_dedupFirst _ _) ?_
  intro k
  rw [groupedByValue, alookup_groupFold, alookup_partitionRef]
  simp only [alookup]
  by_cases h : matchRows data col k = []
  · rw [if_pos h, if_neg (fun hm => mem_firstOccurrenceKeys.mp hm h)]
  · rw [if_neg h, if_pos (mem_firstOccurrenceKeys.mpr h)]

theorem jsEntries_perm (g : List (String × List Row)) : (jsEntries g).Perm g := by
  have h1 : (List.insertionSort (fun a b => entryKeyNum a ≤ entryKeyNum b)
      (g.filter (fun q => isCanonicalIndex q.1))).Perm
      (g.filter (fun q => isCanonicalIndex q.1)) :=
    List.perm_insertionSort _ _
  have h2 : (g.filter (fun q => isCanonicalIndex q.1) ++
      g.filter (fun q => ! isCanonicalIndex q.1)).Perm g :=
    List.filter_append_perm _ g
  exact List.Perm.trans (h1.append (List.Perm.refl _)) h2

theorem count_filterMap_eq_length_matchRows (data : List Row) (col k : String) :
    (data.filterMap (trimVal col)).count k = (matchRows data col k).length := by
  induction data with
  | nil => simp [matchRows]
  | cons r rest ih =>
    rw [matchRows_cons]
    cases htv : trimVal col r with
    | none =>
      rw [List.filterMap_cons_none htv, if_neg (by simp), ih]
    | some k₀ =>
      rw [List.filterMap_cons_some htv]
      by_cases hk : k₀ = k
      · subst hk
        rw [if_pos rfl, List.length_cons, List.count_cons_self, ih]
      · rw [if_neg (by simp [hk]), List.count_cons_of_ne (fun he => hk he.symm), ih]

theorem length_filterMap_add_skipped (data : List Row) (col : String) :
    (data.filterMap (trimVal col)).length +
      (data.filter (fun r => (trimVal col r).isNone)).length = data.length := by
  induction data with
  | nil => rfl
  | cons r rest ih =>
    cases htv : trimVal col r with
    | none =>
      rw [List.filterMap_cons_none htv, List.filter_cons]
      simp only [htv, Option.isNone_none, if_true, List.length_cons]
      omega
    | some k₀ =>
      rw [List.filterMap_cons_some htv, List.filter_cons]
      simp only [htv, Option.isNone_some, Bool.false_eq_true, if_false,
        List.length_cons]
      omega

theorem sum_count_cons (ks : List String) (v : String) (vs : List String) :
    (ks.map (fun k => (v :: vs).count k)).sum =
      (ks.map (fun k => vs.count k)).sum + ks.count v := by
  induction ks with
  | nil => rfl
  | cons k ks ih =>
    rw [List.map_cons, List.map_cons, List.sum_cons, List.sum_cons, ih]
    by_cases h : k = v
    · subst h; rw [List.count_cons_self, List.count_cons_self]; omega
    · rw [List.count_cons_of_ne h, List.count_cons_of_ne (fun he => h he.symm)]
      omega

theorem sum_counts (ks vs : List String) (hnd : ks.Nodup)
    (hmem : ∀ a ∈ vs, a ∈ ks) :
    (ks.map (fun k => vs.count k)).sum = vs.length := by
  induction vs with
  | nil => simp
  | cons v vs ih =>
    rw [sum_count_cons, ih (fun a ha => hmem a (List.mem_cons_of_mem v ha)),
      List.count_eq_one_of_mem hnd (hmem v (List.mem_cons_self v vs)),
      List.length_cons]

theorem map_length_eq_map_count (ks : List String) (data : List Row) (col : String) :
    ks.map (fun k => (matchRows data col k).length) =
      ks.map (fun k => (data.filterMap (trimVal col)).count k) := by
  induction ks with
  | nil => rfl
  | cons k ks ih =>
    rw [List.map_cons, List.map_cons, ih, ← count_filterMap_eq_length_matchRows]

theorem sum_group_sizes (data : List Row) (col : String) :
    ((partitionRef data col).map (fun q => q.2.length)).sum =
      (data.filterMap (trimVal col)).length := by
  rw [partitionRef, List.map_map]
  have hcomp : ((fun q : String × List Row => q.2.length) ∘
      (fun k => (k, matchRows data col k))) =
      fun k => (matchRows data col k).length := rfl
  rw [hcomp, map_length_eq_map_count]
  refine sum_counts _ _ (nodup_dedupFirst _ _) ?_
  intro a ha
  exact (mem_dedupFirst _ _).mpr ⟨ha, by simp⟩

theorem mem_jsEntries_groups {data : List Row} {col k : String} {rs : List Row}
    (h : (k, rs) ∈ jsEntries (groupedByValue data col)) :
    rs = matchRows data col k := by
  have h1 := (jsEntries_perm _).mem_iff.mp h
  rw [groupedByValue_eq_partitionRef, partitionRef] at h1
  rcases List.mem_map.mp h1 with ⟨k', _, heq⟩
  have hk : k' = k := congrArg Prod.fst heq
  have := congrArg Prod.snd heq
  simp only at this
  rw [← this, hk]

/-- C2 counterexample: with the grouping values "2" then "1" the emitted
group sequence is keyed "1" then "2" — JavaScript objects enumerate
array-index keys in ascending numeric order — not the first-occurrence
order "2", "1" that the claim states. -/
theorem group_order_counterexample :
    (jsEntries (groupedByValue
        [[("Nome da operadora:", "2")], [("Nome da operadora:", "1")]]
        "Nome da operadora:")).map Prod.fst = ["1", "2"] ∧
    firstOccurrenceKeys
        [[("Nome da operadora:", "2")], [("Nome da operadora:", "1")]]
        "Nome da operadora:" = ["2", "1"] ∧
    (jsEntries (groupedByValue
        [[("Nome da operadora:", "2")], [("Nome da operadora:", "1")]]
        "Nome da operadora:")).map Prod.fst ≠
      firstOccurrenceKeys
        [[("Nome da operadora:", "2")], [("Nome da operadora:", "1")]]
        "Nome da operadora:" :=
  ⟨by decide, by decide, by decide⟩

/-- C2 (amended): the grouping reduce partitions exactly as the spec
words it — rows processed in original order, value trimmed, rows with an
empty or missing value silently skipped, each row appended to the group
of its trimmed value, groups created on first occurrence and rows inside
a group keeping original relative order — but the emitted sequence of
groups puts groups whose key is a canonical array-index string first, in
ascending numeric order, and only the remaining groups follow in
first-occurrence order. -/
theorem partition_amended (data : List Row) (col : String) :
    groupedByValue data col = partitionRef data col ∧
    jsEntries (groupedByValue data col) =
      List.insertionSort (fun a b => entryKeyNum a ≤ entryKeyNum b)
          ((partitionRef data col).filter (fun q => isCanonicalIndex q.1)) ++
        (partitionRef data col).filter (fun q => ! isCanonicalIndex q.1) := by
  refine ⟨groupedByValue_eq_partitionRef data col, ?_⟩
  rw [jsEntries, groupedByValue_eq_partitionRef]

/-- C5: group sizes plus the number of skipped rows (empty or missing
trimmed grouping value) add up to the input row count; every row of a
group has the group's key as its trimmed grouping value; and no row
belongs to two groups with distinct keys. -/
theorem partition_conservation (data : List Row) (col : String) :
    (((jsEntries (groupedByValue data col)).map (fun q => q.2.length)).sum +
      (data.filter (fun r => (trimVal col r).isNone)).length = data.length) ∧
    (∀ k rs r, (k, rs) ∈ jsEntries (groupedByValue data col) → r ∈ rs →
      trimVal col r = some k) ∧
    (∀ k rs k' rs' r, (k, rs) ∈ jsEntries (groupedByValue data col) →
      (k', rs') ∈ jsEntries (groupedByValue data col) →
      r ∈ rs → r ∈ rs' → k = k') := by
  have hkey : ∀ k rs r, (k, rs) ∈ jsEntries (groupedByValue data col) → r ∈ rs →
      trimVal col r = some k := by
    intro k rs r hmem hr
    rw [mem_jsEntries_groups hmem, matchRows, List.mem_filter] at hr
    exact of_decide_eq_true hr.2
  refine ⟨?_, hkey, ?_⟩
  · have hsum : ((jsEntries (groupedByValue data col)).map (fun q => q.2.length)).sum
        = ((groupedByValue data col).map (fun q => q.2.length)).sum :=
      List.Perm.sum_eq (List.Perm.map _ (jsEntries_perm _))
    rw [hsum, groupedByValue_eq_partitionRef, sum_group_sizes,
      length_filterMap_add_skipped]
  · intro k rs k' rs' r h1 h2 hr1 hr2
    have e1 := hkey k rs r h1 hr1
    have e2 := hkey k' rs' r h2 hr2
    exact Option.some.inj (e1 ▸ e2 ▸ rfl)

theorem partition_conservation_witness :
    trimVal "Nome da operadora:" [("Nome da operadora:", " A ")] = some "A" :=
  (partition_conservation [[("Nome da operadora:", " A ")]] "Nome da operadora:").2.1
    "A" [[("Nome da operadora:", " A ")]] [("Nome da operadora:", " A ")]
    (by decide) (by decide)

/-- A PapaParse error record: row index and message. -/
structure ParseError where
  row : Nat
  message : String
deriving DecidableEq

/-- A PapaParse result: data rows plus error records. -/
structure ParseResult where
  data : List Row
  errors : List ParseError
deriving DecidableEq

/-- A generated per-group output file. -/
structure GeneratedFile where
  filename : String
  content : String
deriving DecidableEq

/-- The fixed candidate grouping headers, in priority order. -/
def possibleColumnNames : List String :=
  ["Nome da operadora:", "Nome do restaurante:", "Nome da empresa:"]

/-- findGroupingColumn from processCsvFile: `undefined` on empty data,
otherwise the first candidate that is a property of the first row. -/
def findGroupingColumn (data : List Row) : Option String :=
  match data with
  | [] => none
  | firstRow :: _ => possibleColumnNames.find? (fun n => hasOwnProperty firstRow n)

/-- The condition under which the primary (UTF-8) attempt is retried with
the fallback encoding: grouping header not found although rows exist, or
parse errors with zero rows (the two `throw`s inside the inner `try` of
processCsvFile). -/
def primaryInconclusive (r : ParseResult) : Bool :=
  (!(findGroupingColumn r.data).isSome && decide (0 < r.data.length)) ||
  (decide (0 < r.errors.length) && decide (r.data.length = 0))

/-- The encoding fallback of processCsvFile: a hard primary failure or an
inconclusive primary result selects the ISO-8859-1 result, whatever it
is; otherwise the UTF-8 result is kept. -/
def chooseResult (primary fallback : Except String ParseResult) :
    Except String ParseResult :=
  match primary with
  | Except.error _ => fallback
  | Except.ok r => if primaryInconclusive r then fallback else Except.ok r

/-- Modelled from the spec wording for C1 (section 4.1 step 2): the
primary attempt is inconclusive exactly when zero rows were produced, or
rows exist but no candidate grouping header is present. -/
def specInconclusive (r : ParseResult) : Bool :=
  decide (r.data.length = 0) ||
  (decide (0 < r.data.length) && !(findGroupingColumn r.data).isSome)

def expectedColumnsString : String :=
  String.intercalate ", " (possibleColumnNames.map (fun n => "\x27" ++ n ++ "\x27"))

def missingColumnsMessage : String :=
  "CSV must contain one of the following columns: " ++ expectedColumnsString

def parseErrorMessage (e : ParseError) : String :=
  "Error parsing CSV file on line " ++ toString e.row ++ ": " ++ e.message ++
    ". Please check the file format."

/-- The post-fallback stage of processCsvFile: fatal parse error only
when there are errors and no rows; then grouping-column resolution; then
grouping and per-group file generation. `Papa.unparse`, the external
serializer, is a parameter. -/
def processParsed (unparse : List Row → String) (res : ParseResult) :
    Except String (List GeneratedFile) :=
  match res.errors, res.data with
  | e :: _, [] => Except.error (parseErrorMessage e)
  | _, _ =>
    match findGroupingColumn res.data with
    | none => Except.error missingColumnsMessage
    | some col =>
      Except.ok ((jsEntries (groupedByValue res.data col)).map
        (fun q => { filename := sanitizeFilename q.1, content := unparse q.2 }))

/-- C1 counterexample: an error-free primary parse with zero rows is
inconclusive per the claim ("zero rows" alone suffices), yet the code
keeps that primary result and never retries with the fallback encoding:
each of the two throw conditions also needs rows, respectively errors. -/
theorem encoding_fallback_counterexample :
    specInconclusive ⟨[], []⟩ = true ∧
    primaryInconclusive ⟨[], []⟩ = false ∧
    chooseResult (Except.ok ⟨[], []⟩)
        (Except.ok ⟨[[("Nome da operadora:", "A")]], []⟩) =
      Except.ok ⟨[], []⟩ ∧
    (Except.ok ⟨[], []⟩ : Except String ParseResult) ≠
      Except.ok ⟨[[("Nome da operadora:", "A")]], []⟩ :=
  ⟨by decide, by decide, rfl, by intro h; simp at h⟩

/-- C1 (amended): the primary attempt falls back exactly when it hard
fails, when rows exist but no candidate header is present in the first
row, or when it produced zero rows and at least one parse error; the
fallback result is then used unconditionally, with no further fallback.
An error-free zero-row primary result is kept. -/
theorem encoding_fallback_amended (primary fallback : Except String ParseResult) :
    (∀ e, primary = Except.error e → chooseResult primary fallback = fallback) ∧
    (∀ r, primary = Except.ok r →
      primaryInconclusive r =
        ((decide (0 < r.data.length) && !(findGroupingColumn r.data).isSome) ||
         (decide (0 < r.errors.length) && decide (r.data.length = 0)))) ∧
    (∀ r, primary = Except.ok r → primaryInconclusive r = true →
      chooseResult primary fallback = fallback) ∧
    (∀ r, primary = Except.ok r → primaryInconclusive r = false →
      chooseResult primary fallback = Except.ok r) := by
  refine ⟨?_, ?_, ?_, ?_⟩
  · intro e he; subst he; rfl
  · intro r _
    simp [primaryInconclusive, Bool.and_comm]
  · intro r hr hinc; subst hr; simp [chooseResult, hinc]
  · intro r hr hinc; subst hr; simp [chooseResult, hinc]

theorem encoding_fallback_amended_witness :
    chooseResult (Except.error "read failure")
        (Except.ok ⟨[[("Nome da operadora:", "A")]], []⟩) =
      Except.ok ⟨[[("Nome da operadora:", "A")]], []⟩ :=
  (encoding_fallback_amended (Except.error "read failure")
      (Except.ok ⟨[[("Nome da operadora:", "A")]], []⟩)).1 "read failure" rfl

/-- C6: grouping resolution checks the three candidate headers in
priority order against key existence in the first row only; on an empty
row sequence or no match, processing fails with exactly the message
listing all three candidates. -/
theorem grouping_resolution (firstRow : Row) (rest : List Row) :
    findGroupingColumn [] = none ∧
    findGroupingColumn (firstRow :: rest) =
      (if hasOwnProperty firstRow "Nome da operadora:" then
        some "Nome da operadora:"
       else if hasOwnProperty firstRow "Nome do restaurante:" then
        some "Nome do restaurante:"
       else if hasOwnProperty firstRow "Nome da empresa:" then
        some "Nome da empresa:"
       else none) ∧
    missingColumnsMessage =
      "CSV must contain one of the following columns: \x27Nome da operadora:\x27, \x27Nome do restaurante:\x27, \x27Nome da empresa:\x27" ∧
    (∀ (unparse : List Row → String) (res : ParseResult),
      findGroupingColumn res.data = none → (res.data ≠ [] ∨ res.errors = []) →
      processParsed unparse res = Except.error missingColumnsMessage) := by
  refine ⟨rfl, ?_, by decide, ?_⟩
  · rw [findGroupingColumn]
    cases h1 : hasOwnProperty firstRow "Nome da operadora:" with
    | true => simp [possibleColumnNames, List.find?, h1]
    | false =>
      cases h2 : hasOwnProperty firstRow "Nome do restaurante:" with
      | true => simp [possibleColumnNames, List.find?, h1, h2]
      | false =>
        cases h3 : hasOwnProperty firstRow "Nome da empresa:" with
        | true => simp [possibleColumnNames, List.find?, h1, h2, h3]
        | false => simp [possibleColumnNames, List.find?, h1, h2, h3]
  · intro unparse res hfind hside
    obtain ⟨data, errors⟩ := res
    simp only at hfind hside
    cases data with
    | cons r ds =>
      cases errors with
      | nil => simp [processParsed, hfind]
      | cons e es => simp [processParsed, hfind]
    | nil =>
      rcases hside with hside | hside
      · exact absurd rfl hside
      · subst hside
        simp [processParsed, hfind]

theorem grouping_resolution_witness :
    processParsed (fun _ => "") ⟨[], []⟩ = Except.error missingColumnsMessage :=
  (grouping_resolution [] []).2.2.2 (fun _ => "") ⟨[], []⟩ rfl (Or.inr rfl)

/-- C7: parse errors accompanied by at least one data row are non-fatal
(the pipeline behaves exactly as if the error list were empty, so no
failure reaches the caller); parse errors with zero data rows abort with
the message built from the first error row index and message. -/
theorem parse_error_handling (unparse : List Row → String) (res : ParseResult) :
    (res.data ≠ [] → processParsed unparse res = processParsed unparse ⟨res.data, []⟩) ∧
    (∀ e rest, res.data = [] → res.errors = e :: rest →
      processParsed unparse res = Except.error (parseErrorMessage e)) ∧
    parseErrorMessage ⟨3, "Too few fields"⟩ =
      "Error parsing CSV file on line 3: Too few fields. Please check the file format." := by
  obtain ⟨data, errors⟩ := res
  refine ⟨?_, ?_, by decide⟩
  · intro hne
    simp only at hne
    cases data with
    | nil => exact absurd rfl hne
    | cons r ds =>
      cases errors with
      | nil => rfl
      | cons e es => rfl
  · intro e rest hdata herr
    simp only at hdata herr
    subst hdata
    subst herr
    rfl

theorem parse_error_handling_witness :
    processParsed (fun _ => "") ⟨[[("Nome da operadora:", "A")]], [⟨1, "bad quote"⟩]⟩ =
      processParsed (fun _ => "") ⟨[[("Nome da operadora:", "A")]], []⟩ :=
  (parse_error_handling (fun _ => "")
      ⟨[[("Nome da operadora:", "A")]], [⟨1, "bad quote"⟩]⟩).1 (by decide)

/-- The metadata of a selected browser file. -/
structure FileInfo where
  name : String
  type : String
deriving DecidableEq

/-- The component state of App: selected file, generated files, the two
busy flags and the error message. -/
structure AppState where
  sourceFile : Option FileInfo
  generatedFiles : List GeneratedFile
  isLoading : Bool
  isZipping : Bool
  error : Option String
deriving DecidableEq

def invalidFileMessage : String := "Invalid file type. Please upload a CSV file."

def zipErrorMessage : String :=
  "Could not create the ZIP file. Please try downloading files individually."

def jsToLower (s : String) : String := String.mk (s.toList.map Char.toLower)

/-- `String.prototype.endsWith`. -/
def jsEndsWith (s suffix : String) : Bool :=
  decide (suffix.toList.length ≤ s.toList.length) &&
    (s.toList.drop (s.toList.length - suffix.toList.length) == suffix.toList)

/-- The file-type guard of handleFileSelect:
`file.type === "text/csv" || file.name.toLowerCase().endsWith(".csv")`. -/
def isCsvFile (f : FileInfo) : Bool :=
  (f.type == "text/csv") || jsEndsWith (jsToLower f.name) ".csv"

/-- handleFileSelect from src/App.tsx as a state transition. -/
def handleFileSelect (s : AppState) (f : FileInfo) : AppState :=
  if ! isCsvFile f then
    { s with error := some invalidFileMessage, sourceFile := none }
  else
    { s with error := none, generatedFiles := [], sourceFile := some f }

/-- downloadAllAsZip from src/App.tsx as a state transition; `zipOk`
abstracts whether the external archive construction succeeded. The DOM
download side effects live outside the state. -/
def downloadAllAsZip (s : AppState) (zipOk : Bool) : AppState :=
  if s.generatedFiles.isEmpty then s
  else if zipOk then { s with isZipping := false }
  else { s with error := some zipErrorMessage, isZipping := false }

/-- C8: when archive construction fails after files were generated, the
error becomes exactly the zip-failure message, the generated files, the
selected file and the loading flag are unchanged, and the busy flag ends
false. -/
theorem zip_failure_state (s : AppState) (h : s.generatedFiles ≠ []) :
    (downloadAllAsZip s false).error = some zipErrorMessage ∧
    (downloadAllAsZip s false).generatedFiles = s.generatedFiles ∧
    (downloadAllAsZip s false).sourceFile = s.sourceFile ∧
    (downloadAllAsZip s false).isLoading = s.isLoading ∧
    (downloadAllAsZip s false).isZipping = false ∧
    zipErrorMessage =
      "Could not create the ZIP file. Please try downloading files individually." := by
  have hne : s.generatedFiles.isEmpty = false := by
    cases hg : s.generatedFiles with
    | nil => exact absurd hg h
    | cons a l => rfl
  simp [downloadAllAsZip, hne, zipErrorMessage]

theorem zip_failure_state_witness :
    (downloadAllAsZip ⟨none, [⟨"f.csv", "c"⟩], false, true, none⟩ false).error =
      some zipErrorMessage ∧
    (downloadAllAsZip ⟨none, [⟨"f.csv", "c"⟩], false, true, none⟩ false).generatedFiles =
      [⟨"f.csv", "c"⟩] :=
  ⟨(zip_failure_state ⟨none, [⟨"f.csv", "c"⟩], false, true, none⟩ (by decide)).1,
   (zip_failure_state ⟨none, [⟨"f.csv", "c"⟩], false, true, none⟩ (by decide)).2.1⟩

/-- C10: selecting a valid CSV file clears the error and the generated
file list and stores the file; selecting a file of invalid type sets the
invalid-file-type error and clears the selected file while leaving the
generated file list unchanged. -/
theorem file_select_state (s : AppState) (f : FileInfo) :
    (isCsvFile f = true →
      handleFileSelect s f =
        { s with error := none, generatedFiles := [], sourceFile := some f }) ∧
    (isCsvFile f = false →
      handleFileSelect s f =
        { s with error := some invalidFileMessage, sourceFile := none } ∧
      (handleFileSelect s f).generatedFiles = s.generatedFiles) := by
  constructor
  · intro h; simp [handleFileSelect, h]
  · intro h
    refine ⟨by simp [handleFileSelect, h], by simp [handleFileSelect, h]⟩

theorem file_select_state_witness :
    handleFileSelect ⟨none, [⟨"x.csv", "x"⟩], false, false, some "old"⟩
        ⟨"a.csv", "text/csv"⟩ =
      ⟨some ⟨"a.csv", "text/csv"⟩, [], false, false, none⟩ ∧
    (handleFileSelect ⟨none, [⟨"x.csv", "x"⟩], false, false, some "old"⟩
        ⟨"a.txt", "text/plain"⟩).generatedFiles = [⟨"x.csv", "x"⟩] :=
  ⟨(file_select_state ⟨none, [⟨"x.csv", "x"⟩], false, false, some "old"⟩
      ⟨"a.csv", "text/csv"⟩).1 (by decide),
   ((file_select_state ⟨none, [⟨"x.csv", "x"⟩], false, false, some "old"⟩
      ⟨"a.txt", "text/plain"⟩).2 (by decide)).2⟩

end CsvSplitter
